import Mathlib

/-!
Verification of the encrypted-at-rest data layer of the winning-son backend.

Go strings are modelled as lists of bytes (`List Nat`, each element `< 256`
where it matters), so plaintexts with embedded NUL or multibyte UTF-8
sequences are covered uniformly.  The AES-256-GCM sealed box and the
HMAC-SHA256 digest come from Go's standard library, which is outside this
repository; they enter the model as an abstract `CryptoPrims` bundle, and
each theorem states the library guarantees it relies on as explicit
hypotheses.  Base64 (Go's `encoding/base64` `StdEncoding`, which is lenient
about non-zero trailing padding bits) is implemented concretely because the
repository's error behaviour depends on it.
-/

/-- Predicate that a list of naturals is a genuine byte string. -/
def isBytes (l : List Nat) : Prop := ∀ b ∈ l, b < 256

instance : DecidablePred isBytes := fun l =>
  List.decidableBAll (fun b => b < 256) l

/-- Value of the i-th character of the standard base64 alphabet
(`A-Z`, `a-z`, `0-9`, `+`, `/`), as Go's `encoding/base64.StdEncoding`. -/
def b64char (i : Nat) : Nat :=
  if i < 26 then 65 + i
  else if i < 52 then 97 + (i - 26)
  else if i < 62 then 48 + (i - 52)
  else if i = 62 then 43
  else 47

/-- Inverse alphabet lookup: `none` on a byte outside the alphabet
(including the padding byte `=` = 61). -/
def b64val (c : Nat) : Option Nat :=
  if 65 ≤ c ∧ c ≤ 90 then some (c - 65)
  else if 97 ≤ c ∧ c ≤ 122 then some (26 + (c - 97))
  else if 48 ≤ c ∧ c ≤ 57 then some (52 + (c - 48))
  else if c = 43 then some 62
  else if c = 47 then some 63
  else none

/-- Go `base64.StdEncoding.EncodeToString` over byte lists: groups of three
bytes become four alphabet bytes; a final group of one or two bytes is
padded with `=` (61). -/
def base64Encode : List Nat → List Nat
  | [] => []
  | [b1] => [b64char (b1 / 4), b64char (b1 % 4 * 16), 61, 61]
  | [b1, b2] => [b64char (b1 / 4), b64char (b1 % 4 * 16 + b2 / 16),
      b64char (b2 % 16 * 4), 61]
  | b1 :: b2 :: b3 :: rest =>
      b64char (b1 / 4) :: b64char (b1 % 4 * 16 + b2 / 16) ::
      b64char (b2 % 16 * 4 + b3 / 64) :: b64char (b3 % 64) ::
      base64Encode rest

/-- Go `base64.StdEncoding.DecodeString`: strict about the shape (length a
multiple of four, `=` only as final padding) but, like Go's non-`Strict()`
decoder, it does not insist that trailing padding bits are zero. -/
def base64Decode : List Nat → Option (List Nat)
  | [] => some []
  | c1 :: c2 :: c3 :: c4 :: rest =>
      match b64val c1, b64val c2 with
      | some v1, some v2 =>
        if c3 = 61 then
          if c4 = 61 ∧ rest = [] then some [v1 * 4 + v2 / 16] else none
        else
          match b64val c3 with
          | some v3 =>
            if c4 = 61 then
              if rest = [] then some [v1 * 4 + v2 / 16, v2 % 16 * 16 + v3 / 4]
              else none
            else
              match b64val c4, base64Decode rest with
              | some v4, some tail =>
                  some ((v1 * 4 + v2 / 16) :: (v2 % 16 * 16 + v3 / 4) ::
                    (v3 % 4 * 64 + v4) :: tail)
              | _, _ => none
          | none => none
      | _, _ => none
  | _ => none

/-- External cryptographic primitives used by `internal/crypto`: the
AES-256-GCM sealed box (`gcm.Seal` with the nonce passed separately and the
sealed bytes returned, `gcm.Open` returning `none` on tag failure) and
HMAC-SHA256.  These live in Go's standard library, outside the repository,
so they are parameters of the model. -/
structure CryptoPrims where
  gcmSeal : List Nat → List Nat → List Nat → List Nat
  gcmOpen : List Nat → List Nat → List Nat → Option (List Nat)
  hmacSHA256 : List Nat → List Nat → List Nat

/-- Error taxonomy of the crypto layer, matching the spec's names for the
`error` values produced in `internal/crypto`. -/
inductive CryptoError where
  | keyError
  | decodeError
  | truncationError
  | authError
deriving DecidableEq, Repr

/-- The `crypto.EncryptionService` struct: two 32-byte keys. -/
structure EncryptionService where
  encryptionKey : List Nat
  blindIndexKey : List Nat
deriving DecidableEq, Repr

/-- Go `crypto.NewEncryptionService`: rejects keys whose length is not 32. -/
def NewEncryptionService (encryptionKey blindIndexKey : List Nat) :
    Except String EncryptionService :=
  if encryptionKey.length ≠ 32 then .error "encryption key must be 32 bytes"
  else if blindIndexKey.length ≠ 32 then .error "blind index key must be 32 bytes"
  else .ok ⟨encryptionKey, blindIndexKey⟩

/-- Go `aes.NewCipher` accepts 16-, 24- or 32-byte keys and fails otherwise. -/
def aesKeyOk (k : List Nat) : Bool :=
  k.length = 16 || k.length = 24 || k.length = 32

/-- `cipher.NewGCM(aesBlock).NonceSize()` is always 12. -/
def gcmNonceSize : Nat := 12

/-- Go `(*EncryptionService).Encrypt`: empty plaintext is returned unchanged
with no error; otherwise the freshly drawn 12-byte nonce (here an explicit
argument modelling the `crypto/rand` read) is prepended to the GCM sealed
bytes and the whole blob is base64-encoded. -/
def Encrypt (P : CryptoPrims) (s : EncryptionService) (nonce plaintext : List Nat) :
    Except CryptoError (List Nat) :=
  if plaintext = [] then .ok []
  else if ¬ aesKeyOk s.encryptionKey then .error .keyError
  else .ok (base64Encode (nonce ++ P.gcmSeal s.encryptionKey nonce plaintext))

/-- Go `(*EncryptionService).Decrypt`: empty input returns empty with no
error; then base64-decode, split off the 12-byte nonce, and open the sealed
bytes, failing on decode, truncation or authentication failure. -/
def Decrypt (P : CryptoPrims) (s : EncryptionService) (ciphertext : List Nat) :
    Except CryptoError (List Nat) :=
  if ciphertext = [] then .ok []
  else
    match base64Decode ciphertext with
    | none => .error .decodeError
    | some data =>
      if ¬ aesKeyOk s.encryptionKey then .error .keyError
      else if data.length < gcmNonceSize then .error .truncationError
      else
        match P.gcmOpen s.encryptionKey (data.take gcmNonceSize)
            (data.drop gcmNonceSize) with
        | none => .error .authError
        | some plaintext => .ok plaintext

/-- Go `(*EncryptionService).GenerateBlindIndex`: empty plaintext maps to
the empty index; otherwise the base64 encoding of the HMAC-SHA256 digest of
the plaintext under the separate blind-index key. -/
def GenerateBlindIndex (P : CryptoPrims) (s : EncryptionService)
    (plaintext : List Nat) : List Nat :=
  if plaintext = [] then []
  else base64Encode (P.hmacSHA256 s.blindIndexKey plaintext)

/-- Go `(*EncryptionService).EncryptWithBlindIndex`: ciphertext and blind
index are both computed from the same pre-encryption plaintext. -/
def EncryptWithBlindIndex (P : CryptoPrims) (s : EncryptionService)
    (nonce plaintext : List Nat) : Except CryptoError (List Nat × List Nat) :=
  match Encrypt P s nonce plaintext with
  | .error e => .error e
  | .ok encrypted => .ok (encrypted, GenerateBlindIndex P s plaintext)

/-- Alphabet lookup inverts the alphabet table on all 64 entries. -/
theorem b64val_b64char (i : Nat) (h : i < 64) : b64val (b64char i) = some i := by
  interval_cases i <;> rfl

/-- No alphabet character is the padding byte 61. -/
theorem b64char_ne_61 (i : Nat) (h : i < 64) : b64char i ≠ 61 := by
  interval_cases i <;> decide

/-- Decoding inverts encoding on genuine byte strings. -/
theorem base64_roundtrip (l : List Nat) (h : isBytes l) :
    base64Decode (base64Encode l) = some l := by
  induction l using base64Encode.induct with
  | case1 => rfl
  | case2 b1 =>
    have hb1 : b1 < 256 := h b1 (by simp)
    have h1 : b1 / 4 < 64 := by omega
    have h2 : b1 % 4 * 16 < 64 := by omega
    simp only [base64Encode, base64Decode, b64val_b64char _ h1, b64val_b64char _ h2,
      reduceIte, and_self, Option.some.injEq, List.cons.injEq, and_true]
    omega
  | case3 b1 b2 =>
    have hb1 : b1 < 256 := h b1 (by simp)
    have hb2 : b2 < 256 := h b2 (by simp)
    have h1 : b1 / 4 < 64 := by omega
    have h2 : b1 % 4 * 16 + b2 / 16 < 64 := by omega
    have h3 : b2 % 16 * 4 < 64 := by omega
    simp only [base64Encode, base64Decode, b64val_b64char _ h1, b64val_b64char _ h2,
      b64val_b64char _ h3, if_neg (b64char_ne_61 _ h3), reduceIte,
      Option.some.injEq, List.cons.injEq, and_true]
    omega
  | case4 b1 b2 b3 rest ih =>
    have hb1 : b1 < 256 := h b1 (by simp)
    have hb2 : b2 < 256 := h b2 (by simp)
    have hb3 : b3 < 256 := h b3 (by simp)
    have hrest : isBytes rest := fun b hb => h b (by simp [hb])
    have h1 : b1 / 4 < 64 := by omega
    have h2 : b1 % 4 * 16 + b2 / 16 < 64 := by omega
    have h3 : b2 % 16 * 4 + b3 / 64 < 64 := by omega
    have h4 : b3 % 64 < 64 := by omega
    simp only [base64Encode, base64Decode, b64val_b64char _ h1, b64val_b64char _ h2,
      b64val_b64char _ h3, b64val_b64char _ h4, if_neg (b64char_ne_61 _ h3),
      if_neg (b64char_ne_61 _ h4), ih hrest, Option.some.injEq, List.cons.injEq]
    exact ⟨by omega, by omega, by omega, trivial⟩

/-- Encoding is injective on genuine byte strings. -/
theorem base64Encode_inj {l1 l2 : List Nat} (h1 : isBytes l1) (h2 : isBytes l2)
    (h : base64Encode l1 = base64Encode l2) : l1 = l2 := by
  have r1 := base64_roundtrip l1 h1
  have r2 := base64_roundtrip l2 h2
  rw [h, r2] at r1
  exact (Option.some_inj.mp r1).symm

/-- Encoding a non-empty byte string is never empty. -/
theorem base64Encode_ne_nil {l : List Nat} (h : l ≠ []) : base64Encode l ≠ [] := by
  match l with
  | [] => exact absurd rfl h
  | [b1] => simp [base64Encode]
  | [b1, b2] => simp [base64Encode]
  | b1 :: b2 :: b3 :: rest => simp [base64Encode]

/-- Encrypt always succeeds when the AES key has a legal length; the
resulting blob is the base64 encoding of nonce plus sealed bytes. -/
theorem Encrypt_ok (P : CryptoPrims) (s : EncryptionService)
    (nonce pt : List Nat) (hkey : s.encryptionKey.length = 32) (hpt : pt ≠ []) :
    Encrypt P s nonce pt =
      .ok (base64Encode (nonce ++ P.gcmSeal s.encryptionKey nonce pt)) := by
  simp [Encrypt, hpt, aesKeyOk, hkey]

/-- Decryption of a genuinely produced blob reaches the AEAD open call with
exactly the original nonce and sealed bytes. -/
theorem Decrypt_of_encoded (P : CryptoPrims) (s : EncryptionService)
    (nonce sealed : List Nat)
    (hkey : s.encryptionKey.length = 32)
    (hnlen : nonce.length = 12)
    (hnb : isBytes nonce) (hsb : isBytes sealed) :
    Decrypt P s (base64Encode (nonce ++ sealed)) =
      match P.gcmOpen s.encryptionKey nonce sealed with
      | none => .error .authError
      | some plaintext => .ok plaintext := by
  have hnonceNe : nonce ≠ [] := List.ne_nil_of_length_pos (by omega)
  have hne : nonce ++ sealed ≠ [] :=
    List.append_ne_nil_of_left_ne_nil hnonceNe sealed
  have hbytes : isBytes (nonce ++ sealed) := by
    intro b hb
    rcases List.mem_append.mp hb with h | h
    · exact hnb b h
    · exact hsb b h
  have hdec := base64_roundtrip (nonce ++ sealed) hbytes
  have hlen : (nonce ++ sealed).length = 12 + sealed.length := by
    simp [List.length_append, hnlen]
  unfold Decrypt
  rw [if_neg (base64Encode_ne_nil hne), hdec]
  simp only [aesKeyOk, hkey, gcmNonceSize]
  rw [if_neg (by simp), if_neg (by omega), List.take_left' hnlen,
    List.drop_left' hnlen]

/-- C2: decrypting the result of encrypting any byte string under the same
32-byte key returns exactly the original, relying only on the GCM library
round-trip guarantee at this key, nonce and plaintext. -/
theorem encrypt_decrypt_roundtrip (P : CryptoPrims) (s : EncryptionService)
    (nonce pt : List Nat)
    (hkey : s.encryptionKey.length = 32)
    (hnlen : nonce.length = 12)
    (hnb : isBytes nonce)
    (hsb : isBytes (P.gcmSeal s.encryptionKey nonce pt))
    (hopen : P.gcmOpen s.encryptionKey nonce (P.gcmSeal s.encryptionKey nonce pt) =
      some pt) :
    ∃ ct, Encrypt P s nonce pt = .ok ct ∧ Decrypt P s ct = .ok pt := by
  by_cases hpt : pt = []
  · subst hpt
    exact ⟨[], by simp [Encrypt], by simp [Decrypt]⟩
  · refine ⟨base64Encode (nonce ++ P.gcmSeal s.encryptionKey nonce pt),
      Encrypt_ok P s nonce pt hkey hpt, ?_⟩
    rw [Decrypt_of_encoded P s nonce _ hkey hnlen hnb hsb, hopen]

/-- Executable stand-in for the external AEAD, used by the witnesses: the
sealed blob is `p ++ k ++ n ++ p`, and opening succeeds exactly on blobs of
that shape, so authentication is perfect and all the hypotheses the
theorems place on the library are satisfiable. -/
def toySeal (k n p : List Nat) : List Nat := p ++ (k ++ (n ++ p))

/-- Length of the plaintext recoverable from a toy sealed blob. -/
def toyPlainLen (k n c : List Nat) : Nat := (c.length - (k.length + n.length)) / 2

/-- Opening for `toySeal`: recover the plaintext length from the blob
length and check the blob has exactly the sealed shape. -/
def toyOpen (k n c : List Nat) : Option (List Nat) :=
  if c = c.take (toyPlainLen k n c) ++ (k ++ (n ++ c.take (toyPlainLen k n c)))
  then some (c.take (toyPlainLen k n c)) else none

/-- Deterministic keyed digest stand-in with the 32-byte output length of
HMAC-SHA256 (the keys in play are 32 bytes long). -/
def toyMac (k m : List Nat) : List Nat := (m ++ k).take 32

/-- The primitive bundle assembled from the toy stand-ins. -/
def toyPrims : CryptoPrims := ⟨toySeal, toyOpen, toyMac⟩

/-- The toy AEAD satisfies the GCM round-trip guarantee. -/
theorem toyOpen_toySeal (k n p : List Nat) : toyOpen k n (toySeal k n p) = some p := by
  have hlen : (toySeal k n p).length = p.length + (k.length + (n.length + p.length)) := by
    simp [toySeal, List.length_append]
  have hpl : toyPlainLen k n (toySeal k n p) = p.length := by
    unfold toyPlainLen
    omega
  have htake : (toySeal k n p).take p.length = p := List.take_left' rfl
  unfold toyOpen
  rw [hpl, htake]
  simp [toySeal]

/-- The toy AEAD authenticates perfectly: opening succeeds only on blobs
that are exactly a sealed plaintext under the same key and nonce. -/
theorem toyOpen_sound {k n c p : List Nat} (h : toyOpen k n c = some p) :
    c = toySeal k n p := by
  unfold toyOpen at h
  split at h
  · next heq =>
      have hp : c.take (toyPlainLen k n c) = p := Option.some_inj.mp h
      rw [toySeal, ← hp]
      exact heq
  · exact absurd h (by simp)

/-- Sealed blobs under different keys of equal length never coincide when
the nonce lengths agree. -/
theorem toySeal_key_ne {k1 k2 n1 n2 p1 p2 : List Nat}
    (hk : k1 ≠ k2) (hklen : k1.length = k2.length) (hnlen : n1.length = n2.length) :
    toySeal k1 n1 p1 ≠ toySeal k2 n2 p2 := by
  intro h
  unfold toySeal at h
  have hlen : p1.length + (k1.length + (n1.length + p1.length)) =
      p2.length + (k2.length + (n2.length + p2.length)) := by
    have := congrArg List.length h
    simpa [List.length_append] using this
  have hplen : p1.length = p2.length := by omega
  obtain ⟨hp, hrest⟩ := List.append_inj h hplen
  obtain ⟨hkeq, _⟩ := List.append_inj hrest hklen
  exact hk hkeq

/-- Key material shared by the witnesses below. -/
def wsKey : List Nat := List.replicate 32 7

/-- Blind-index key shared by the witnesses below. -/
def wsIdxKey : List Nat := List.replicate 32 9

/-- Service instance shared by the witnesses below. -/
def wsSvc : EncryptionService := ⟨wsKey, wsIdxKey⟩

/-- A 12-byte nonce for the witnesses. -/
def wsNonce : List Nat := [0, 1, 2, 3, 4, 5, 6, 7, 8, 9, 10, 11]

/-- Witness for the round-trip theorem at a concrete plaintext containing
an embedded zero byte and a byte from a multibyte UTF-8 sequence. -/
theorem encrypt_decrypt_roundtrip_witness :
    ∃ ct, Encrypt toyPrims wsSvc wsNonce [104, 0, 233] = .ok ct ∧
      Decrypt toyPrims wsSvc ct = .ok [104, 0, 233] :=
  encrypt_decrypt_roundtrip toyPrims wsSvc wsNonce [104, 0, 233]
    (by decide) (by decide) (by decide) (by decide) (by decide)

/-- Byte strings are closed under append. -/
theorem isBytes_append {a b : List Nat} (ha : isBytes a) (hb : isBytes b) :
    isBytes (a ++ b) := by
  intro x hx
  rcases List.mem_append.mp hx with h | h
  · exact ha x h
  · exact hb x h

/-- Startup key validation from `cmd/server/main.go`: the process dies with
`logger.Fatal` (so never serves) if `ENCRYPTION_KEY` or `BLIND_INDEX_KEY`
is empty or not exactly 32 bytes. -/
def startupKeysValid (encryptionKey blindIndexKey : List Nat) : Bool :=
  !encryptionKey.isEmpty && encryptionKey.length == 32 &&
  (!blindIndexKey.isEmpty && blindIndexKey.length == 32)

/-- C7: `NewEncryptionService` succeeds exactly when both keys are 32 bytes
long, and the startup validation accepts exactly the same key material, so
the service is constructible iff the process would agree to serve. -/
theorem key_validation_iff (ek bik : List Nat) :
    ((∃ svc, NewEncryptionService ek bik = .ok svc) ↔
      (ek.length = 32 ∧ bik.length = 32)) ∧
    (startupKeysValid ek bik = true ↔ (ek.length = 32 ∧ bik.length = 32)) := by
  refine ⟨⟨?_, ?_⟩, ?_, ?_⟩
  · rintro ⟨svc, hsvc⟩
    unfold NewEncryptionService at hsvc
    split_ifs at hsvc with hc1 hc2
    all_goals first
      | exact Except.noConfusion hsvc
      | exact ⟨by omega, by omega⟩
  · rintro ⟨h1, h2⟩
    exact ⟨⟨ek, bik⟩, by simp [NewEncryptionService, h1, h2]⟩
  · intro h
    simp only [startupKeysValid, Bool.and_eq_true, beq_iff_eq] at h
    exact ⟨h.1.2, h.2.2⟩
  · rintro ⟨h1, h2⟩
    have hek : ek.isEmpty = false := by
      rw [← Bool.not_eq_true, List.isEmpty_iff]
      intro hnil
      rw [hnil] at h1
      simp at h1
    have hbik : bik.isEmpty = false := by
      rw [← Bool.not_eq_true, List.isEmpty_iff]
      intro hnil
      rw [hnil] at h2
      simp at h2
    simp [startupKeysValid, hek, hbik, h1, h2]

/-- C8: empty values are never transformed: encryption and blind indexing
both pass empty input through unchanged and without error, and the blind
index of any non-empty plaintext (the encoding of the non-empty HMAC
digest) never collides with the empty sentinel index. -/
theorem empty_value_noop (P : CryptoPrims) (s : EncryptionService)
    (nonce p : List Nat) (hp : p ≠ [])
    (hmac : P.hmacSHA256 s.blindIndexKey p ≠ []) :
    Encrypt P s nonce [] = .ok [] ∧
    GenerateBlindIndex P s [] = [] ∧
    GenerateBlindIndex P s p ≠ GenerateBlindIndex P s [] := by
  refine ⟨by simp [Encrypt], by simp [GenerateBlindIndex], ?_⟩
  simp only [GenerateBlindIndex, if_pos rfl, if_neg hp]
  exact base64Encode_ne_nil hmac

/-- Witness for the empty-value rule at plaintext `"a"`. -/
theorem empty_value_noop_witness :
    Encrypt toyPrims wsSvc wsNonce [] = .ok [] ∧
    GenerateBlindIndex toyPrims wsSvc [] = [] ∧
    GenerateBlindIndex toyPrims wsSvc [97] ≠ GenerateBlindIndex toyPrims wsSvc [] :=
  empty_value_noop toyPrims wsSvc wsNonce [97] (by decide) (by decide)

/-- A second 12-byte nonce, distinct from `wsNonce`, for the witnesses. -/
def wsNonce2 : List Nat := [11, 10, 9, 8, 7, 6, 5, 4, 3, 2, 1, 0]

/-- C5: the blind index depends only on the plaintext and the blind-index
key (identical output across any two calls, even on services that differ in
their encryption key), while encrypting the same non-empty plaintext twice
yields different ciphertext blobs whenever the two drawn nonces differ. -/
theorem blind_index_deterministic_encrypt_nondeterministic
    (P : CryptoPrims) (s1 s2 : EncryptionService) (p n1 n2 : List Nat)
    (hp : p ≠ [])
    (hidx : s1.blindIndexKey = s2.blindIndexKey)
    (hkey : s1.encryptionKey.length = 32)
    (h1 : n1.length = 12) (h2 : n2.length = 12)
    (hb1 : isBytes n1) (hb2 : isBytes n2)
    (hs1 : isBytes (P.gcmSeal s1.encryptionKey n1 p))
    (hs2 : isBytes (P.gcmSeal s1.encryptionKey n2 p))
    (hne : n1 ≠ n2) :
    GenerateBlindIndex P s1 p = GenerateBlindIndex P s2 p ∧
    Encrypt P s1 n1 p ≠ Encrypt P s1 n2 p := by
  constructor
  · simp [GenerateBlindIndex, hidx]
  · rw [Encrypt_ok P s1 n1 p hkey hp, Encrypt_ok P s1 n2 p hkey hp]
    intro h
    have henc := Except.ok.inj h
    have hdata := base64Encode_inj (isBytes_append hb1 hs1) (isBytes_append hb2 hs2) henc
    exact hne (List.append_inj_left hdata (h1.trans h2.symm))

/-- Witness for determinism/non-determinism at plaintext `"a"` and two
distinct nonces. -/
theorem blind_index_det_encrypt_nondet_witness :
    GenerateBlindIndex toyPrims wsSvc [97] = GenerateBlindIndex toyPrims wsSvc [97] ∧
    Encrypt toyPrims wsSvc wsNonce [97] ≠ Encrypt toyPrims wsSvc wsNonce2 [97] :=
  blind_index_deterministic_encrypt_nondeterministic toyPrims wsSvc wsSvc [97]
    wsNonce wsNonce2 (by decide) rfl (by decide) (by decide) (by decide)
    (by decide) (by decide) (by decide) (by decide) (by decide)

/-- The `models.User` fields touched by the encryption orchestrator:
`Email` and `EmailBlindIndex` (both stored as text), and the optional
`Goal`.  The remaining columns are never transformed and are omitted. -/
structure User where
  email : List Nat
  emailBlindIndex : List Nat
  goal : Option (List Nat)
deriving DecidableEq, Repr

/-- Go `services.EncryptUser` (`internal/services/encryption_service.go`):
encrypt the email together with its blind index, then encrypt the goal when
present and non-empty.  The two nonce arguments model the two fresh random
draws. -/
def EncryptUser (P : CryptoPrims) (s : EncryptionService)
    (nonceEmail nonceGoal : List Nat) (u : User) : Except CryptoError User :=
  match EncryptWithBlindIndex P s nonceEmail u.email with
  | .error e => .error e
  | .ok (encryptedEmail, blindIndex) =>
    match u.goal with
    | some g =>
      if g ≠ [] then
        match Encrypt P s nonceGoal g with
        | .error e => .error e
        | .ok eg => .ok ⟨encryptedEmail, blindIndex, some eg⟩
      else .ok ⟨encryptedEmail, blindIndex, u.goal⟩
    | none => .ok ⟨encryptedEmail, blindIndex, u.goal⟩

/-- Go `services.DecryptUser`: decrypt the email, then the goal when
present and non-empty; any failure aborts and is returned. -/
def DecryptUser (P : CryptoPrims) (s : EncryptionService) (u : User) :
    Except CryptoError User :=
  match Decrypt P s u.email with
  | .error e => .error e
  | .ok decryptedEmail =>
    match u.goal with
    | some g =>
      if g ≠ [] then
        match Decrypt P s g with
        | .error e => .error e
        | .ok dg => .ok ⟨decryptedEmail, u.emailBlindIndex, some dg⟩
      else .ok ⟨decryptedEmail, u.emailBlindIndex, u.goal⟩
    | none => .ok ⟨decryptedEmail, u.emailBlindIndex, u.goal⟩

/-- The `models.Journal` field touched by the orchestrator (`Topics`); the
remaining columns are carried untouched beside it in the handler models. -/
structure Journal where
  topics : List Nat
deriving DecidableEq, Repr

/-- Go `services.EncryptJournal`: encrypt `Topics` when non-empty. -/
def EncryptJournal (P : CryptoPrims) (s : EncryptionService) (nonce : List Nat)
    (j : Journal) : Except CryptoError Journal :=
  if j.topics ≠ [] then
    match Encrypt P s nonce j.topics with
    | .error e => .error e
    | .ok t => .ok ⟨t⟩
  else .ok j

/-- Go `services.DecryptJournal`: decrypt `Topics` when non-empty; a
failure is returned to the caller. -/
def DecryptJournal (P : CryptoPrims) (s : EncryptionService) (j : Journal) :
    Except CryptoError Journal :=
  if j.topics ≠ [] then
    match Decrypt P s j.topics with
    | .error e => .error e
    | .ok t => .ok ⟨t⟩
  else .ok j

/-- Go `services.GenerateEmailBlindIndex`: a thin wrapper over the crypto
layer's blind index. -/
def GenerateEmailBlindIndex (P : CryptoPrims) (s : EncryptionService)
    (email : List Nat) : List Nat :=
  GenerateBlindIndex P s email

/-- ASCII model of Go `strings.ToLower` on one byte. -/
def toLowerByte (b : Nat) : Nat := if 65 ≤ b ∧ b ≤ 90 then b + 32 else b

/-- ASCII whitespace recognised by the trim model (space, TAB, LF, VT, FF,
CR), matching `strings.TrimSpace` on ASCII input. -/
def isSpaceByte (b : Nat) : Bool :=
  b == 32 || b == 9 || b == 10 || b == 11 || b == 12 || b == 13

/-- Drop leading whitespace bytes. -/
def trimLeftSpaces : List Nat → List Nat
  | [] => []
  | b :: rest => if isSpaceByte b then trimLeftSpaces rest else b :: rest

/-- Go `strings.TrimSpace` (ASCII model): drop leading and trailing
whitespace. -/
def trimSpaces (l : List Nat) : List Nat :=
  (trimLeftSpaces (trimLeftSpaces l).reverse).reverse

/-- The email normalization both `AuthHandler.Signup` and
`AuthHandler.Login` apply to the submitted email:
`strings.TrimSpace(strings.ToLower(email))` (ASCII model). -/
def normalizeEmail (e : List Nat) : List Nat := trimSpaces (e.map toLowerByte)

/-- The `users` row columns relevant to signup and login. -/
structure UserRow where
  email : List Nat
  emailBlindIndex : List Nat
  passwordHash : List Nat
deriving DecidableEq, Repr

/-- Failure modes of the signup handler model. -/
inductive SignupError where
  | badRequest
  | encryptionFailure (e : CryptoError)
deriving DecidableEq, Repr

/-- Go `AuthHandler.Signup` (encryption path): normalize the email, reject
empty email or password, encrypt via `EncryptUser` on a temporary user, and
insert the ciphertext email and its blind index in the same row write. -/
def Signup (P : CryptoPrims) (s : EncryptionService)
    (nonceEmail nonceGoal rawEmail password passwordHash : List Nat) :
    Except SignupError UserRow :=
  if normalizeEmail rawEmail = [] ∨ password = [] then .error .badRequest
  else
    match EncryptUser P s nonceEmail nonceGoal
        ⟨normalizeEmail rawEmail, [], none⟩ with
    | .error ce => .error (.encryptionFailure ce)
    | .ok tu => .ok ⟨tu.email, tu.emailBlindIndex, passwordHash⟩

/-- First row whose `email_blind_index` column equals the probe, modelling
`SELECT ... FROM users WHERE email_blind_index=$1`. -/
def findRowByIndex (bi : List Nat) : List UserRow → Option UserRow
  | [] => none
  | r :: rest => if r.emailBlindIndex = bi then some r else findRowByIndex bi rest

/-- Position of that row; it is a function of the blind-index column only. -/
def findRowPos (bi : List Nat) : List UserRow → Option Nat
  | [] => none
  | r :: rest =>
      if r.emailBlindIndex = bi then some 0
      else (findRowPos bi rest).map (fun i => i + 1)

/-- Go `AuthHandler.Login`, row-resolution part: normalize the email,
compute its blind index, and select the row whose stored
`email_blind_index` equals it (no stored email is decrypted to find it). -/
def LoginLookup (P : CryptoPrims) (s : EncryptionService) (db : List UserRow)
    (rawEmail : List Nat) : Option UserRow :=
  findRowByIndex (GenerateEmailBlindIndex P s (normalizeEmail rawEmail)) db

/-- Decidable equality on `Except`, used to evaluate witnesses. -/
instance {e a : Type} [DecidableEq e] [DecidableEq a] : DecidableEq (Except e a) :=
  fun x y =>
  match x, y with
  | .error e1, .error e2 =>
      if h : e1 = e2 then isTrue (h ▸ rfl)
      else isFalse (fun hc => h (Except.error.inj hc))
  | .error _, .ok _ => isFalse (fun hc => Except.noConfusion hc)
  | .ok _, .error _ => isFalse (fun hc => Except.noConfusion hc)
  | .ok a1, .ok a2 =>
      if h : a1 = a2 then isTrue (h ▸ rfl)
      else isFalse (fun hc => h (Except.ok.inj hc))

/-- Shape of `EncryptUser` on the temporary signup user: the stored email
is the encoded sealed blob and the stored blind index is computed from the
same pre-encryption plaintext. -/
theorem EncryptUser_temp (P : CryptoPrims) (s : EncryptionService)
    (nE nG e : List Nat) (hkey : s.encryptionKey.length = 32) (he : e ≠ []) :
    EncryptUser P s nE nG ⟨e, [], none⟩ =
      .ok ⟨base64Encode (nE ++ P.gcmSeal s.encryptionKey nE e),
        GenerateBlindIndex P s e, none⟩ := by
  unfold EncryptUser EncryptWithBlindIndex
  rw [Encrypt_ok P s nE e hkey he]

/-- A successful signup stores exactly the encoded sealed email and the
blind index of the same normalized plaintext, in one row value. -/
theorem Signup_shape (P : CryptoPrims) (s : EncryptionService)
    {nE nG rawEmail password passwordHash : List Nat} {row : UserRow}
    (hkey : s.encryptionKey.length = 32)
    (hsign : Signup P s nE nG rawEmail password passwordHash = .ok row) :
    normalizeEmail rawEmail ≠ [] ∧
    row = ⟨base64Encode (nE ++ P.gcmSeal s.encryptionKey nE (normalizeEmail rawEmail)),
      GenerateBlindIndex P s (normalizeEmail rawEmail), passwordHash⟩ := by
  unfold Signup at hsign
  by_cases h : normalizeEmail rawEmail = [] ∨ password = []
  · rw [if_pos h] at hsign
    exact Except.noConfusion hsign
  · rw [if_neg h] at hsign
    have he : normalizeEmail rawEmail ≠ [] := fun hh => h (Or.inl hh)
    rw [EncryptUser_temp P s nE nG (normalizeEmail rawEmail) hkey he] at hsign
    dsimp only at hsign
    exact ⟨he, (Except.ok.inj hsign).symm⟩

/-- C3: for every row written by signup, the persisted blind index equals
the blind index of exactly the plaintext whose ciphertext sits beside it in
the same row value: the stored index is `GenerateBlindIndex` of the
normalized email and the stored email ciphertext decrypts back to that very
plaintext. -/
theorem blind_index_pairs_ciphertext (P : CryptoPrims) (s : EncryptionService)
    (nE nG rawEmail password passwordHash : List Nat) (row : UserRow)
    (hkey : s.encryptionKey.length = 32)
    (hnlen : nE.length = 12) (hnb : isBytes nE)
    (hsb : isBytes (P.gcmSeal s.encryptionKey nE (normalizeEmail rawEmail)))
    (hopen : P.gcmOpen s.encryptionKey nE
      (P.gcmSeal s.encryptionKey nE (normalizeEmail rawEmail)) =
      some (normalizeEmail rawEmail))
    (hsign : Signup P s nE nG rawEmail password passwordHash = .ok row) :
    row.emailBlindIndex = GenerateBlindIndex P s (normalizeEmail rawEmail) ∧
    Decrypt P s row.email = .ok (normalizeEmail rawEmail) := by
  obtain ⟨he, rfl⟩ := Signup_shape P s hkey hsign
  refine ⟨rfl, ?_⟩
  rw [Decrypt_of_encoded P s nE _ hkey hnlen hnb hsb, hopen]

/-- The signup row used by several witnesses: raw email `" A@X"`,
normalizing to `"a@x"`. -/
def c3Row : UserRow :=
  ⟨base64Encode (wsNonce ++ toySeal wsKey wsNonce [97, 64, 120]),
    GenerateBlindIndex toyPrims wsSvc [97, 64, 120], [104]⟩

/-- Witness: the ciphertext/blind-index pairing invariant at a concrete
signup. -/
theorem blind_index_pairs_ciphertext_witness :
    c3Row.emailBlindIndex =
      GenerateBlindIndex toyPrims wsSvc (normalizeEmail [32, 65, 64, 88]) ∧
    Decrypt toyPrims wsSvc c3Row.email = .ok (normalizeEmail [32, 65, 64, 88]) :=
  blind_index_pairs_ciphertext toyPrims wsSvc wsNonce wsNonce2 [32, 65, 64, 88]
    [112] [104] c3Row (by decide) (by decide) (by decide) (by decide) (by decide)
    (by decide)

/-- The first-match lookup returns the unique row carrying the probed
blind index whenever that row is present. -/
theorem findRowByIndex_mem_uniq {bi : List Nat} {db : List UserRow} {row : UserRow}
    (hbi : row.emailBlindIndex = bi) (hmem : row ∈ db)
    (huniq : ∀ r ∈ db, r.emailBlindIndex = bi → r = row) :
    findRowByIndex bi db = some row := by
  induction db with
  | nil => cases hmem
  | cons r rest ih =>
    by_cases h : r.emailBlindIndex = bi
    · have hr : r = row := huniq r (by simp) h
      subst hr
      simp [findRowByIndex, h]
    · have hmem2 : row ∈ rest := by
        rcases List.mem_cons.mp hmem with rfl | hm
        · exact absurd hbi h
        · exact hm
      simp only [findRowByIndex, if_neg h]
      exact ih hmem2 (fun r2 hr2 => huniq r2 (List.mem_cons_of_mem r hr2))

/-- The matched position depends only on the blind-index column. -/
theorem findRowPos_col {bi : List Nat} :
    ∀ {db1 db2 : List UserRow},
      db1.map (fun r => r.emailBlindIndex) = db2.map (fun r => r.emailBlindIndex) →
      findRowPos bi db1 = findRowPos bi db2 := by
  intro db1
  induction db1 with
  | nil =>
    intro db2 h
    cases db2 with
    | nil => rfl
    | cons r2 rest2 => simp at h
  | cons r rest ih =>
    intro db2 h
    cases db2 with
    | nil => simp at h
    | cons r2 rest2 =>
      simp only [List.map_cons, List.cons.injEq] at h
      unfold findRowPos
      rw [h.1, ih h.2]

/-- C9: login resolves the user row by blind-index equality: it computes
the blind index of the submitted (normalized) email and selects the row
whose stored `email_blind_index` equals it, so the row created by signup
with the same email is found, and which position matches is a function of
the blind-index column alone — no stored email ciphertext is decrypted to
locate the row. -/
theorem login_resolves_by_blind_index (P : CryptoPrims) (s : EncryptionService)
    (nE nG rawEmail password passwordHash : List Nat)
    (db : List UserRow) (row : UserRow)
    (hkey : s.encryptionKey.length = 32)
    (hsign : Signup P s nE nG rawEmail password passwordHash = .ok row)
    (hmem : row ∈ db)
    (huniq : ∀ r ∈ db, r.emailBlindIndex = row.emailBlindIndex → r = row) :
    LoginLookup P s db rawEmail = some row ∧
    (∀ db2 : List UserRow,
      db2.map (fun r => r.emailBlindIndex) = db.map (fun r => r.emailBlindIndex) →
      findRowPos (GenerateEmailBlindIndex P s (normalizeEmail rawEmail)) db2 =
        findRowPos (GenerateEmailBlindIndex P s (normalizeEmail rawEmail)) db) := by
  obtain ⟨he, hrow⟩ := Signup_shape P s hkey hsign
  have hbi : row.emailBlindIndex = GenerateEmailBlindIndex P s (normalizeEmail rawEmail) := by
    rw [hrow]
    rfl
  constructor
  · exact findRowByIndex_mem_uniq hbi hmem (fun r hr h2 => huniq r hr (h2.trans hbi.symm))
  · intro db2 h2
    exact findRowPos_col h2

/-- A row with a different blind index, sitting in front of the signup row
in the witness database. -/
def otherRow : UserRow := ⟨[1, 2, 3], [4, 5, 6], [7]⟩

/-- Witness database for the login lookup. -/
def c9Db : List UserRow := [otherRow, c3Row]

/-- Witness: login with the same raw email finds exactly the signup row. -/
theorem login_resolves_by_blind_index_witness :
    LoginLookup toyPrims wsSvc c9Db [32, 65, 64, 88] = some c3Row :=
  (login_resolves_by_blind_index toyPrims wsSvc wsNonce wsNonce2 [32, 65, 64, 88]
    [112] [104] c9Db c3Row (by decide) (by decide) (by decide) (by decide)).1

/-- C10: signup and login normalize the submitted email with the same
function (trim whitespace, lower-case), so any variant of the email that
normalizes to the same string yields the same blind index as the one
stored at signup and hence resolves to the same user row. -/
theorem signup_login_normalization (P : CryptoPrims) (s : EncryptionService)
    (nE nG e1 e2 password passwordHash : List Nat)
    (db : List UserRow) (row : UserRow)
    (hkey : s.encryptionKey.length = 32)
    (hnorm : normalizeEmail e1 = normalizeEmail e2)
    (hsign : Signup P s nE nG e1 password passwordHash = .ok row)
    (hmem : row ∈ db)
    (huniq : ∀ r ∈ db, r.emailBlindIndex = row.emailBlindIndex → r = row) :
    GenerateEmailBlindIndex P s (normalizeEmail e2) = row.emailBlindIndex ∧
    LoginLookup P s db e2 = some row := by
  obtain ⟨he, hrow⟩ := Signup_shape P s hkey hsign
  have hbi : row.emailBlindIndex = GenerateEmailBlindIndex P s (normalizeEmail e2) := by
    rw [hrow, ← hnorm]
    rfl
  refine ⟨hbi.symm, ?_⟩
  exact findRowByIndex_mem_uniq hbi hmem
    (fun r hr h2 => huniq r hr (h2.trans hbi.symm))

/-- Witness: signup with `" A@X"` and login with `"a@x  "` (same
normalization) resolve to the same row. -/
theorem signup_login_normalization_witness :
    GenerateEmailBlindIndex toyPrims wsSvc (normalizeEmail [97, 64, 120, 32, 32]) =
      c3Row.emailBlindIndex ∧
    LoginLookup toyPrims wsSvc c9Db [97, 64, 120, 32, 32] = some c3Row :=
  signup_login_normalization toyPrims wsSvc wsNonce wsNonce2 [32, 65, 64, 88]
    [97, 64, 120, 32, 32] [112] [104] c9Db c3Row (by decide) (by decide)
    (by decide) (by decide) (by decide)

/-- A scanned `journal_entries` row as `JournalHandler.List` reads it:
`local_date` (formatted date string), `topics` (stored ciphertext), the two
ratings, and `karma` (a float64 in Go; it is only passed through unchanged,
so it is carried here as an integer payload). -/
structure JournalRow where
  localDate : List Nat
  topics : List Nat
  alignmentRating : Int
  contentmentRating : Int
  karma : Int
deriving DecidableEq, Repr

/-- One element of the JSON array `JournalHandler.List` responds with. -/
structure JournalEntryOut where
  localDate : List Nat
  topics : List Nat
  alignmentRating : Int
  contentmentRating : Int
  karma : Int
deriving DecidableEq, Repr

/-- The row loop of `JournalHandler.List` (`internal/handlers`, journal
list endpoint): for each fetched row it decrypts the topics into a
temporary journal and appends the entry to the output only when decryption
succeeded; a decryption error is not propagated — the row is dropped and
the loop continues, and the handler then responds 200 with the remaining
entries. -/
def journalListEntries (P : CryptoPrims) (s : EncryptionService) :
    List JournalRow → List JournalEntryOut
  | [] => []
  | row :: rest =>
    match DecryptJournal P s ⟨row.topics⟩ with
    | .ok j => ⟨row.localDate, j.topics, row.alignmentRating,
        row.contentmentRating, row.karma⟩ :: journalListEntries P s rest
    | .error _ => journalListEntries P s rest

/-- A stored topics blob that decrypts correctly under the witness keys. -/
def c1GoodTopics : List Nat := base64Encode (wsNonce ++ toySeal wsKey wsNonce [116, 97])

/-- A stored topics blob that is not base64, so decryption fails. -/
def c1BadTopics : List Nat := [33, 33, 33, 33]

/-- A result set with one decryptable row and one undecryptable row. -/
def c1Rows : List JournalRow :=
  [⟨[50, 48], c1GoodTopics, 5, 6, 1⟩, ⟨[50, 49], c1BadTopics, 7, 8, 2⟩]

/-- C1 fails on the code: decrypting the second row's topics errors, yet
the journal List operation does not abort — it silently omits that row and
returns the remaining entries as a successful response, contradicting the
fail-closed propagation policy (the spec itself flags this listing path as
a defect). -/
theorem journal_list_swallows_decrypt_error :
    DecryptJournal toyPrims wsSvc ⟨c1BadTopics⟩ = .error .decodeError ∧
    journalListEntries toyPrims wsSvc c1Rows =
      [⟨[50, 48], [116, 97], 5, 6, 1⟩] := by
  decide

/-- A genuine ciphertext blob for plaintext `"a"` under the witness keys;
its final base64 group is `Y Q = =`, whose second character carries four
unused trailing bits. -/
def c4Ct : List Nat := base64Encode (wsNonce ++ toySeal wsKey wsNonce [97])

/-- C4 as stated is false on the code: flipping byte 77 of the produced
blob from `Q` (81) to `R` (82) is a single-byte tampering, yet `Decrypt`
does not fail at all — Go's lenient base64 decoder ignores the changed
trailing padding bits, so the blob decodes to the same bytes and decryption
succeeds; and flipping byte 0 to `!` (33) makes the blob unparseable, which
fails with a decode error, not an authentication error. -/
theorem decrypt_tamper_not_always_auth_failure :
    Encrypt toyPrims wsSvc wsNonce [97] = .ok c4Ct ∧
    c4Ct.get? 77 = some 81 ∧
    c4Ct.set 77 82 ≠ c4Ct ∧
    Decrypt toyPrims wsSvc (c4Ct.set 77 82) = .ok [97] ∧
    c4Ct.get? 0 = some 65 ∧
    Decrypt toyPrims wsSvc (c4Ct.set 0 33) = .error .decodeError := by
  decide

/-- C4 (amended): on a non-empty blob, `Decrypt` fails with a decode error
exactly on unparseable base64, with a truncation error exactly when the
decoded bytes are shorter than one 12-byte nonce, and with an
authentication error exactly when the AEAD open rejects; it succeeds only
on blobs whose decoded bytes are an AEAD-vouched `nonce ++ sealed` pair
(never altered or garbage plaintext), and decryption of a genuine blob
under a different 32-byte key fails with an authentication error.  A
single-byte tampering therefore fails with a decode or authentication
error unless it only alters unused base64 trailing padding bits, in which
case the blob decodes identically and the original plaintext is returned. -/
theorem decrypt_failure_modes (P : CryptoPrims) (s : EncryptionService)
    (hkey : s.encryptionKey.length = 32) (ct : List Nat) (hct : ct ≠ []) :
    (base64Decode ct = none → Decrypt P s ct = .error .decodeError) ∧
    (∀ data, base64Decode ct = some data → data.length < 12 →
      Decrypt P s ct = .error .truncationError) ∧
    (∀ data, base64Decode ct = some data → 12 ≤ data.length →
      P.gcmOpen s.encryptionKey (data.take 12) (data.drop 12) = none →
      Decrypt P s ct = .error .authError) ∧
    (∀ data pt, base64Decode ct = some data → 12 ≤ data.length →
      P.gcmOpen s.encryptionKey (data.take 12) (data.drop 12) = some pt →
      Decrypt P s ct = .ok pt) ∧
    ((∀ n c q, P.gcmOpen s.encryptionKey n c = some q →
        c = P.gcmSeal s.encryptionKey n q) →
      ∀ pt, Decrypt P s ct = .ok pt →
      ∃ data, base64Decode ct = some data ∧ 12 ≤ data.length ∧
        data.drop 12 = P.gcmSeal s.encryptionKey (data.take 12) pt) ∧
    (∀ (s2 : EncryptionService) (nonce pt : List Nat),
      s2.encryptionKey.length = 32 → nonce.length = 12 → isBytes nonce →
      isBytes (P.gcmSeal s.encryptionKey nonce pt) →
      ct = base64Encode (nonce ++ P.gcmSeal s.encryptionKey nonce pt) →
      (∀ n c q, P.gcmOpen s2.encryptionKey n c = some q →
        c = P.gcmSeal s2.encryptionKey n q) →
      (∀ q, P.gcmSeal s2.encryptionKey nonce q ≠ P.gcmSeal s.encryptionKey nonce pt) →
      Decrypt P s2 ct = .error .authError) := by
  have hak : aesKeyOk s.encryptionKey = true := by simp [aesKeyOk, hkey]
  have hbase : Decrypt P s ct = (match base64Decode ct with
      | none => .error .decodeError
      | some data =>
        if ¬ aesKeyOk s.encryptionKey then .error .keyError
        else if data.length < gcmNonceSize then .error .truncationError
        else
          match P.gcmOpen s.encryptionKey (data.take gcmNonceSize)
              (data.drop gcmNonceSize) with
          | none => .error .authError
          | some plaintext => .ok plaintext) := by
    unfold Decrypt
    rw [if_neg hct]
  refine ⟨?_, ?_, ?_, ?_, ?_, ?_⟩
  · intro h
    rw [hbase, h]
  · intro data h hlt
    rw [hbase, h]
    dsimp only
    rw [if_neg (by simp [hak]), if_pos (by simpa [gcmNonceSize] using hlt)]
  · intro data h hge hopen
    rw [hbase, h]
    dsimp only
    rw [if_neg (by simp [hak]), if_neg (by simp [gcmNonceSize]; omega)]
    simp only [gcmNonceSize]
    rw [hopen]
  · intro data pt h hge hopen
    rw [hbase, h]
    dsimp only
    rw [if_neg (by simp [hak]), if_neg (by simp [gcmNonceSize]; omega)]
    simp only [gcmNonceSize]
    rw [hopen]
  · intro hsound pt hdec
    rw [hbase] at hdec
    cases hdecode : base64Decode ct with
    | none =>
      rw [hdecode] at hdec
      exact Except.noConfusion hdec
    | some data =>
      rw [hdecode] at hdec
      dsimp only at hdec
      rw [if_neg (by simp [hak])] at hdec
      by_cases hlen : data.length < gcmNonceSize
      · rw [if_pos hlen] at hdec
        exact Except.noConfusion hdec
      · rw [if_neg hlen] at hdec
        cases hopen : P.gcmOpen s.encryptionKey (data.take gcmNonceSize)
            (data.drop gcmNonceSize) with
        | none =>
          rw [hopen] at hdec
          exact Except.noConfusion hdec
        | some q =>
          rw [hopen] at hdec
          have hq : q = pt := Except.ok.inj hdec
          subst hq
          refine ⟨data, rfl, by simp [gcmNonceSize] at hlen; omega, ?_⟩
          have := hsound (data.take gcmNonceSize) (data.drop gcmNonceSize) q hopen
          simpa [gcmNonceSize] using this
  · intro s2 nonce pt hk2 hn12 hnb hsb hcteq hsound2 hcross
    rw [hcteq, Decrypt_of_encoded P s2 nonce _ hk2 hn12 hnb hsb]
    cases hop : P.gcmOpen s2.encryptionKey nonce (P.gcmSeal s.encryptionKey nonce pt) with
    | none => rfl
    | some q => exact absurd (hsound2 _ _ _ hop).symm (hcross q)

/-- A second 32-byte encryption key, different from `wsKey`. -/
def wsKey2 : List Nat := List.replicate 32 8

/-- A service holding the wrong encryption key for `c4Ct`. -/
def wsSvc2 : EncryptionService := ⟨wsKey2, wsIdxKey⟩

/-- Witness for the amended failure-mode taxonomy: decrypting the genuine
blob `c4Ct` under a different 32-byte key fails with an authentication
error. -/
theorem decrypt_failure_modes_witness :
    Decrypt toyPrims wsSvc2 c4Ct = .error .authError :=
  ((decrypt_failure_modes toyPrims wsSvc (by decide) c4Ct (by decide)).2.2.2.2.2)
    wsSvc2 wsNonce [97] (by decide) (by decide) (by decide) (by decide) rfl
    (fun n c q h => toyOpen_sound h)
    (fun q => toySeal_key_ne (by decide) (by decide) rfl)

/-- Encrypt never fails when the service key has the mandatory length. -/
theorem Encrypt_isOk (P : CryptoPrims) (s : EncryptionService)
    (nonce p : List Nat) (hkey : s.encryptionKey.length = 32) :
    ∃ c, Encrypt P s nonce p = .ok c := by
  by_cases hp : p = []
  · exact ⟨[], by simp [Encrypt, hp]⟩
  · exact ⟨_, Encrypt_ok P s nonce p hkey hp⟩

/-- The orchestrator's user encryption never fails under a valid key. -/
theorem EncryptUser_isOk (P : CryptoPrims) (s : EncryptionService)
    (nE nG : List Nat) (u : User) (hkey : s.encryptionKey.length = 32) :
    ∃ tu, EncryptUser P s nE nG u = .ok tu := by
  obtain ⟨ce, hce⟩ := Encrypt_isOk P s nE u.email hkey
  unfold EncryptUser EncryptWithBlindIndex
  rw [hce]
  dsimp only
  cases hg : u.goal with
  | none => exact ⟨_, rfl⟩
  | some g =>
    dsimp only
    by_cases hgn : g ≠ []
    · obtain ⟨cg, hcg⟩ := Encrypt_isOk P s nG g hkey
      rw [if_pos hgn, hcg]
      exact ⟨_, rfl⟩
    · rw [if_neg hgn]
      exact ⟨_, rfl⟩

/-- Modelled from the spec: the backfill script
`scripts/migrate_to_encryption.py` is not among the repository sources
(only its README is), so the migration is modelled from the spec's
contract.  A `users` row as the migrator sees it: `email_blind_index` is
NULL (`none`) exactly on not-yet-migrated rows. -/
structure MigUser where
  id : Nat
  email : List Nat
  emailBlindIndex : Option (List Nat)
  goal : Option (List Nat)
deriving DecidableEq, Repr

/-- Modelled from the spec: per-row outcome of `MigrateRow`. -/
inductive MigOutcome where
  | migrated
  | skippedAlreadyEncrypted
  | errored
deriving DecidableEq, Repr

/-- Modelled from the spec: `Scan()` selects the rows whose indexed
field's blind-index column is unset — the detection predicate for
"not yet migrated". -/
def scanUsers (rows : List MigUser) : List MigUser :=
  rows.filter (fun r => r.emailBlindIndex.isNone)

/-- Modelled from the spec: `MigrateRow` detects already-encrypted input
(a blind index already present) and treats it as `SkippedAlreadyEncrypted`
rather than re-encrypting; otherwise it computes ciphertext and blind index
with the same orchestrator the application uses and writes them together,
leaving the row unchanged (and recorded as errored) on any error. -/
def migrateUserRow (P : CryptoPrims) (s : EncryptionService)
    (nonceEmail nonceGoal : List Nat) (r : MigUser) : MigUser × MigOutcome :=
  match r.emailBlindIndex with
  | some _ => (r, .skippedAlreadyEncrypted)
  | none =>
    match EncryptUser P s nonceEmail nonceGoal ⟨r.email, [], r.goal⟩ with
    | .error _ => (r, .errored)
    | .ok tu => (⟨r.id, tu.email, some tu.emailBlindIndex, tu.goal⟩, .migrated)

/-- Modelled from the spec: one live run of the user migration processes
every row (each in its own transaction) and reports the migrated count.
The nonce streams model the per-row random draws. -/
def runUserMigration (P : CryptoPrims) (s : EncryptionService)
    (nonceOf gnonceOf : Nat → List Nat) :
    List MigUser → List MigUser × Nat
  | [] => ([], 0)
  | r :: rest =>
    let step := migrateUserRow P s (nonceOf r.id) (gnonceOf r.id) r
    let next := runUserMigration P s nonceOf gnonceOf rest
    (step.1 :: next.1, (if step.2 = .migrated then 1 else 0) + next.2)

/-- A row whose blind index is already present is skipped unchanged. -/
theorem migrateUserRow_skips {P : CryptoPrims} {s : EncryptionService}
    {nE nG : List Nat} {r : MigUser} (h : r.emailBlindIndex.isSome) :
    migrateUserRow P s nE nG r = (r, .skippedAlreadyEncrypted) := by
  unfold migrateUserRow
  cases hr : r.emailBlindIndex with
  | none => rw [hr] at h; exact absurd h (by simp)
  | some bi => rfl

/-- After one live run under a valid key, every row carries a blind index. -/
theorem runUserMigration_isSome (P : CryptoPrims) (s : EncryptionService)
    (nOf gOf : Nat → List Nat) (rows : List MigUser)
    (hkey : s.encryptionKey.length = 32) :
    ∀ r ∈ (runUserMigration P s nOf gOf rows).1, r.emailBlindIndex.isSome := by
  induction rows with
  | nil => intro r hr; cases hr
  | cons r0 rest ih =>
    intro r hr
    unfold runUserMigration at hr
    dsimp only at hr
    rcases List.mem_cons.mp hr with hhead | htail
    · subst hhead
      unfold migrateUserRow
      cases hr0 : r0.emailBlindIndex with
      | some bi => simp [hr0]
      | none =>
        obtain ⟨tu, htu⟩ := EncryptUser_isOk P s (nOf r0.id) (gOf r0.id)
          ⟨r0.email, [], r0.goal⟩ hkey
        rw [htu]
        simp
    · exact ih r htail

/-- A run over rows that all carry a blind index changes nothing and
migrates zero rows. -/
theorem runUserMigration_id (P : CryptoPrims) (s : EncryptionService)
    (nOf gOf : Nat → List Nat) (rows : List MigUser)
    (h : ∀ r ∈ rows, r.emailBlindIndex.isSome) :
    runUserMigration P s nOf gOf rows = (rows, 0) := by
  induction rows with
  | nil => rfl
  | cons r0 rest ih =>
    unfold runUserMigration
    rw [migrateUserRow_skips (h r0 (by simp)),
      ih (fun r hr => h r (List.mem_cons_of_mem r0 hr))]
    simp

/-- C6 (migration idempotence, modelled from the spec): a second live run
over an already-migrated dataset leaves it byte-for-byte identical with a
migrated count of zero, the second run's scan selects nothing, and each
already-encrypted row is individually treated as skipped rather than
re-encrypted. -/
theorem migration_idempotent (P : CryptoPrims) (s : EncryptionService)
    (nOf gOf nOf2 gOf2 : Nat → List Nat) (rows : List MigUser)
    (hkey : s.encryptionKey.length = 32) :
    runUserMigration P s nOf2 gOf2 (runUserMigration P s nOf gOf rows).1 =
      ((runUserMigration P s nOf gOf rows).1, 0) ∧
    scanUsers (runUserMigration P s nOf gOf rows).1 = [] ∧
    (∀ r ∈ (runUserMigration P s nOf gOf rows).1, ∀ nE nG,
      migrateUserRow P s nE nG r = (r, .skippedAlreadyEncrypted)) := by
  have hsome := runUserMigration_isSome P s nOf gOf rows hkey
  refine ⟨runUserMigration_id P s nOf2 gOf2 _ hsome, ?_, ?_⟩
  · unfold scanUsers
    rw [List.filter_eq_nil_iff]
    intro r hr
    have := hsome r hr
    simp only [Option.isNone_iff_eq_none]
    intro hnone
    rw [hnone] at this
    exact absurd this (by simp)
  · intro r hr nE nG
    exact migrateUserRow_skips (hsome r hr)

/-- Concrete migration dataset: one unmigrated row, one already-encrypted
row. -/
def c6Rows : List MigUser :=
  [⟨1, [97, 64, 120], none, some [103]⟩, ⟨2, [98, 64, 121], some [1, 2], none⟩]

/-- Witness: running the modelled migration twice on the concrete dataset
leaves the second run with no changes and a migrated count of zero. -/
theorem migration_idempotent_witness :
    runUserMigration toyPrims wsSvc (fun _ => wsNonce2) (fun _ => wsNonce2)
        (runUserMigration toyPrims wsSvc (fun _ => wsNonce) (fun _ => wsNonce)
          c6Rows).1 =
      ((runUserMigration toyPrims wsSvc (fun _ => wsNonce) (fun _ => wsNonce)
          c6Rows).1, 0) :=
  (migration_idempotent toyPrims wsSvc (fun _ => wsNonce) (fun _ => wsNonce)
    (fun _ => wsNonce2) (fun _ => wsNonce2) c6Rows (by decide)).1
